import Mathlib

/-!
Shallow embedding of `src/simple-vector/simple_vector.h` (`SimpleVector<Type>`),
a growable contiguous sequence container, together with proofs of the
specification claims about it.

Modelling conventions:
* `size_t` fields become `Nat`.
* The backing store `ArrayPtr<Type> items_` becomes a `List α` holding the
  current contents of every allocated slot, so `buffer.length` is the
  allocated length of the backing buffer.
* `Type()` (default construction) becomes an explicit default value `d : α`
  passed to every operation that constructs fresh slots.
* Reading an unallocated slot is undefined behaviour in the C++ source; the
  embedding renders such a read as the supplied default and such a write as a
  no-op (`List.set` out of range).  All theorems about well-formed vectors
  carry the invariant `Inv` that rules these situations out.
* Both the copy and the move overload of `PushBack` / `Insert` leave the same
  vector state (the only difference is what happens to the argument), so each
  pair is modelled by a single function on vector states.
-/

namespace SimpleVec

/-- `ArrayPtr<Type>` (the Buffer component) is not under `src/`.
Modelled from the spec: §4.1 says `Buffer(length)` allocates `length`
default-initialized slots.  `allocBuffer n d` is that freshly allocated
block, every slot holding the default value `d`. -/
def allocBuffer (n : Nat) (d : α) : List α := List.replicate n d

/-- `std:copy` of a whole source range into a destination block starting at
slot 0: the first `src.length` slots are overwritten, the rest keep their
old contents. -/
def copyInto (src dst : List α) : List α := src ++ dst.drop src.length

/-- `std:generate` over slots `[lo, hi)` writing `Type()`: every allocated
slot with index in `[lo, hi)` is overwritten with the default value. -/
def fillRange (l : List α) (lo hi : Nat) (d : α) : List α :=
  l.mapIdx fun i x => if lo ≤ i ∧ i < hi then d else x

/-- `std:copy_backward(l + index, l + size, l + size + 1)`: shifts slots
`[index, size)` one slot toward the tail.  The backward iteration order of
`copy_backward` reads each source slot before it can be overwritten, so the
net effect is pointwise: slot `i` with `index < i ≤ size` receives the old
slot `i - 1`, every other slot is unchanged. -/
def shiftTailRight (l : List α) (index size : Nat) : List α :=
  l.mapIdx fun i x => if index < i ∧ i ≤ size then l.getD (i - 1) x else x

/-- `std:copy(l + index + 1, l + size, l + index)`: shifts slots
`(index, size)` one slot toward the head.  The forward iteration order reads
each source slot before it is overwritten, so the net effect is pointwise:
slot `i` with `index ≤ i` and `i + 1 < size` receives the old slot `i + 1`,
every other slot is unchanged. -/
def shiftTailLeft (l : List α) (index size : Nat) : List α :=
  l.mapIdx fun i x => if index ≤ i ∧ i + 1 < size then l.getD (i + 1) x else x

/-- The `ReserveProxyObj` capacity-hint value object. -/
structure ReserveProxyObj where
  capacity_to_reserve_ : Nat
deriving Repr, DecidableEq

def ReserveProxyObj.GetCapacity (o : ReserveProxyObj) : Nat :=
  o.capacity_to_reserve_

/-- The free helper function `Reserve(capacity_to_reserve)` producing a
capacity hint. -/
def MakeReserveHint (capacity_to_reserve : Nat) : ReserveProxyObj :=
  ⟨capacity_to_reserve⟩

/-- State of a `SimpleVector<Type>`: the backing buffer contents (one list
entry per allocated slot), the logical size `size_`, and the recorded
capacity `capacity_`. -/
structure SimpleVector (α : Type) where
  buffer : List α
  size_ : Nat
  capacity_ : Nat
deriving Repr, DecidableEq

namespace SimpleVector

variable {α : Type}

/-- Default constructor: no buffer, `size_ = 0`, `capacity_ = 0`. -/
def mkDefault : SimpleVector α := ⟨[], 0, 0⟩

/-- `SimpleVector(size)`: allocates `size` slots and fills them with
`Type()`. -/
def mkSized (n : Nat) (d : α) : SimpleVector α :=
  ⟨copyInto (List.replicate n d) (allocBuffer n d), n, n⟩

/-- `SimpleVector(size, value)`: allocates `size` slots and `std:fill`s them
with `value`. -/
def mkSizedValue (n : Nat) (value d : α) : SimpleVector α :=
  ⟨copyInto (List.replicate n value) (allocBuffer n d), n, n⟩

/-- `SimpleVector(std:initializer_list)`: allocates `init.size()` slots and
copies the list elements in order. -/
def fromList (init : List α) (d : α) : SimpleVector α :=
  ⟨copyInto init (allocBuffer init.length d), init.length, init.length⟩

/-- Copy constructor, line 58: allocates `other.GetSize()` slots, sets
`size_ = other.GetSize()` and `capacity_ = other.GetCapacity()`, and copies
`[other.begin(), other.end())` — i.e. the first `other.size_` buffer slots —
into the fresh buffer. -/
def copyCtor (other : SimpleVector α) (d : α) : SimpleVector α :=
  ⟨copyInto (other.buffer.take other.size_) (allocBuffer other.size_ d),
    other.size_, other.capacity_⟩

/-- Move constructor: steals the buffer, `std:exchange`s the source's size
and capacity to 0.  Returns (new vector, moved-from source). -/
def moveCtor (other : SimpleVector α) : SimpleVector α × SimpleVector α :=
  (⟨other.buffer, other.size_, other.capacity_⟩, ⟨[], 0, 0⟩)

/-- `SimpleVector(ReserveProxyObj)`, line 87: sets `capacity_` from the hint
and allocates no buffer (the `items_` member stays default-constructed,
i.e. null / zero length). -/
def reserveCtor (obj : ReserveProxyObj) : SimpleVector α :=
  ⟨[], 0, obj.GetCapacity⟩

def GetSize (v : SimpleVector α) : Nat := v.size_

def GetCapacity (v : SimpleVector α) : Nat := v.capacity_

def IsEmpty (v : SimpleVector α) : Bool := v.size_ == 0

/-- Unchecked `operator[]`: `*(items_.Get() + index)`.  An out-of-range read
is undefined behaviour in C++; the embedding returns the default there. -/
def get (v : SimpleVector α) (index : Nat) (d : α) : α :=
  v.buffer.getD index d

/-- Checked `At(index)`, line 119: throws `std:out_of_range` when
`index >= size_`, otherwise returns the same slot as `operator[]`. -/
def At (v : SimpleVector α) (index : Nat) (d : α) : Except String α :=
  if index ≥ v.size_ then Except.error "Out of range"
  else Except.ok (v.get index d)

/-- The sequence of live elements, `[begin(), end())`. -/
def toList (v : SimpleVector α) : List α := v.buffer.take v.size_

/-- `Reserve(new_capacity)`, line 276: if `new_capacity > capacity_`,
allocate a fresh buffer of `new_capacity` default-initialized slots, move
the first `size_` elements into it, swap buffers and set
`capacity_ = new_capacity`; otherwise do nothing. -/
def Reserve (v : SimpleVector α) (new_capacity : Nat) (d : α) :
    SimpleVector α :=
  if new_capacity > v.capacity_ then
    ⟨copyInto (v.buffer.take v.size_) (allocBuffer new_capacity d),
      v.size_, new_capacity⟩
  else v

/-- `Resize(new_size)`, line 142, three branches exactly as in the source. -/
def Resize (v : SimpleVector α) (new_size : Nat) (d : α) : SimpleVector α :=
  if new_size ≤ v.size_ then
    ⟨v.buffer, new_size, v.capacity_⟩
  else if new_size ≤ v.capacity_ then
    ⟨fillRange v.buffer v.size_ new_size d, new_size, v.capacity_⟩
  else
    let new_capacity := max new_size (v.capacity_ * 2)
    let tmp := fillRange
      (copyInto (v.buffer.take v.size_) (allocBuffer new_capacity d))
      v.size_ new_capacity d
    ⟨tmp, new_size, new_capacity⟩

/-- `Clear()`: delegates to `Resize(0)`. -/
def Clear (v : SimpleVector α) (d : α) : SimpleVector α := v.Resize 0 d

/-- `PushBack` (both the copy and the move overload place `item` into slot
`size_` — by assignment or by `std:swap` with the default-initialized fresh
slot — and increment `size_`; on a full vector they first grow via
`Reserve` with the doubling rule). -/
def PushBack (v : SimpleVector α) (item : α) (d : α) : SimpleVector α :=
  if v.size_ < v.capacity_ then
    ⟨v.buffer.set v.size_ item, v.size_ + 1, v.capacity_⟩
  else
    let new_capacity := if v.capacity_ = 0 then 1 else v.capacity_ * 2
    let w := v.Reserve new_capacity d
    ⟨w.buffer.set w.size_ item, w.size_ + 1, w.capacity_⟩

/-- `Insert(pos, value)` (copy and move overload have the same vector-state
effect).  `index = pos - begin()`.  Grows exactly as the source: when
`size_ >= capacity_` it calls `Reserve` with the doubling rule and then
redundantly re-assigns `capacity_`.  Then `std:copy_backward` shifts
`[index, size_)` one slot tailward, the value is placed at slot `index`,
`size_` is incremented, and the new index of the inserted element is
returned. -/
def Insert (v : SimpleVector α) (index : Nat) (value : α) (d : α) :
    SimpleVector α × Nat :=
  let w :=
    if v.size_ ≥ v.capacity_ then
      let new_capacity := if v.capacity_ = 0 then 1 else v.capacity_ * 2
      let u := v.Reserve new_capacity d
      { u with capacity_ := new_capacity }
    else v
  (⟨(shiftTailRight w.buffer index w.size_).set index value,
      w.size_ + 1, w.capacity_⟩, index)

/-- `PopBack()`: decrements `size_`.  Precondition (§4.9): the vector is
non-empty; on an empty vector the C++ decrement of a `size_t` is a contract
violation, rendered here by truncating `Nat` subtraction. -/
def PopBack (v : SimpleVector α) : SimpleVector α :=
  ⟨v.buffer, v.size_ - 1, v.capacity_⟩

/-- `Erase(pos)`: `index = pos - begin()`; `std:copy` shifts `(index, size_)`
one slot headward, `size_` is decremented, and `index` is returned. -/
def Erase (v : SimpleVector α) (index : Nat) : SimpleVector α × Nat :=
  (⟨shiftTailLeft v.buffer index v.size_, v.size_ - 1, v.capacity_⟩, index)

/-- `swap(other)`: exchanges the buffers, the sizes and the capacities.
Returns the pair (new value of `*this`, new value of `other`). -/
def swap (a b : SimpleVector α) : SimpleVector α × SimpleVector α :=
  (⟨b.buffer, b.size_, b.capacity_⟩, ⟨a.buffer, a.size_, a.capacity_⟩)

/-- `operator==`: equal sizes guard, then `std:equal` over the two live
ranges. -/
def veq [DecidableEq α] (lhs rhs : SimpleVector α) : Bool :=
  if lhs.GetSize = rhs.GetSize then lhs.toList == rhs.toList else false

/-- `operator!=`: `!(lhs == rhs)`. -/
def vne [DecidableEq α] (lhs rhs : SimpleVector α) : Bool :=
  !(veq lhs rhs)

/-- `std:lexicographical_compare` with `operator<` on elements, by the exact
loop of the algorithm. -/
def lexCompare [LinearOrder α] : List α → List α → Bool
  | _, [] => false
  | [], _ :: _ => true
  | a :: as, b :: bs =>
    if a < b then true else if b < a then false else lexCompare as bs

/-- `operator<`: lexicographical comparison of the live ranges. -/
def vlt [LinearOrder α] (lhs rhs : SimpleVector α) : Bool :=
  lexCompare lhs.toList rhs.toList

/-- `operator>`: `!(lhs < rhs) && lhs != rhs`. -/
def vgt [LinearOrder α] (lhs rhs : SimpleVector α) : Bool :=
  !(vlt lhs rhs) && vne lhs rhs

/-- `operator<=`: `!(lhs > rhs)`. -/
def vle [LinearOrder α] (lhs rhs : SimpleVector α) : Bool :=
  !(vgt lhs rhs)

/-- `operator>=`: `!(lhs < rhs)`. -/
def vge [LinearOrder α] (lhs rhs : SimpleVector α) : Bool :=
  !(vlt lhs rhs)

/-- Well-formedness invariant of §3 of the spec: the logical size never
exceeds the capacity, and the recorded capacity is the allocated length of
the backing buffer. -/
def Inv (v : SimpleVector α) : Prop :=
  v.size_ ≤ v.capacity_ ∧ v.buffer.length = v.capacity_

instance (v : SimpleVector α) : Decidable v.Inv := by
  unfold Inv; infer_instance

/-- A sequence of `PushBack` calls, one per element of `xs`, in order. -/
def pushMany (d : α) (v : SimpleVector α) (xs : List α) : SimpleVector α :=
  xs.foldl (fun w x => w.PushBack x d) v

end SimpleVector

/-- One mutating public operation of the container, used to speak about
arbitrary sequences of public operations. -/
inductive Op (α : Type) where
  | pushBack (item : α)
  | popBack
  | insert (index : Nat) (value : α)
  | erase (index : Nat)
  | resize (new_size : Nat)
  | reserve (new_capacity : Nat)
  | clear
deriving Repr

/-- Runs one operation on a vector state. -/
def applyOp (d : α) : Op α → SimpleVector α → SimpleVector α
  | .pushBack x, v => v.PushBack x d
  | .popBack, v => v.PopBack
  | .insert i x, v => (v.Insert i x d).1
  | .erase i, v => (v.Erase i).1
  | .resize n, v => v.Resize n d
  | .reserve n, v => v.Reserve n d
  | .clear, v => v.Clear d

/-- Precondition of each operation (§4.7-§4.9, §7): `Insert` takes a
position in `[begin, end]`, `Erase` a position in `[begin, end)`,
`PopBack` requires a non-empty container; violating these is undefined
behaviour, so sequences of operations are only considered when each step
respects its precondition. -/
def opPre : Op α → SimpleVector α → Prop
  | .popBack, v => 0 < v.size_
  | .insert i _, v => i ≤ v.size_
  | .erase i, v => i < v.size_
  | _, _ => True

instance (op : Op α) (v : SimpleVector α) : Decidable (opPre op v) := by
  cases op <;> simp only [opPre] <;> infer_instance

/-- Runs a sequence of operations left to right. -/
def runOps (d : α) (v : SimpleVector α) : List (Op α) → SimpleVector α
  | [] => v
  | op :: rest => runOps d (applyOp d op v) rest

/-- Every operation of the sequence respects its precondition in the state
it runs in. -/
def opsPre (d : α) (v : SimpleVector α) : List (Op α) → Prop
  | [] => True
  | op :: rest => opPre op v ∧ opsPre d (applyOp d op v) rest

instance opsPreDecidable (d : α) :
    ∀ (ops : List (Op α)) (v : SimpleVector α), Decidable (opsPre d v ops)
  | [], _ => .isTrue trivial
  | op :: rest, v => by
    have := opsPreDecidable d rest (applyOp d op v)
    simp only [opsPre]
    infer_instance

theorem length_allocBuffer (n : Nat) (d : α) : (allocBuffer n d).length = n :=
  List.length_replicate n d

theorem copyInto_allocBuffer (src : List α) (n : Nat) (d : α) :
    copyInto src (allocBuffer n d) = src ++ List.replicate (n - src.length) d := by
  simp [copyInto, allocBuffer, List.drop_replicate]

theorem length_fillRange (l : List α) (lo hi : Nat) (d : α) :
    (fillRange l lo hi d).length = l.length :=
  List.length_mapIdx

theorem getElem_fillRange (l : List α) (lo hi : Nat) (d : α) (i : Nat)
    (h : i < l.length) (h2 : i < (fillRange l lo hi d).length) :
    (fillRange l lo hi d)[i] = if lo ≤ i ∧ i < hi then d else l[i] := by
  have hbase := List.get_mapIdx l (fun j x => if lo ≤ j ∧ j < hi then d else x) i h
  simp only [fillRange, List.get_eq_getElem] at hbase ⊢
  exact hbase

theorem length_shiftTailRight (l : List α) (index size : Nat) :
    (shiftTailRight l index size).length = l.length :=
  List.length_mapIdx

theorem getElem_shiftTailRight_mem (l : List α) (index size i : Nat)
    (h : i < l.length) (hlo : index < i) (hhi : i ≤ size)
    (h2 : i < (shiftTailRight l index size).length) :
    (shiftTailRight l index size)[i] = l.get ⟨i - 1, by omega⟩ := by
  have hbase := List.get_mapIdx l
    (fun j x => if index < j ∧ j ≤ size then l.getD (j - 1) x else x) i h
  simp only [shiftTailRight, List.get_eq_getElem] at hbase ⊢
  rw [hbase, if_pos ⟨hlo, hhi⟩, List.getD_eq_getElem l _ (show i - 1 < l.length by omega)]

theorem getElem_shiftTailRight_not (l : List α) (index size i : Nat)
    (h : i < l.length) (hn : ¬ (index < i ∧ i ≤ size))
    (h2 : i < (shiftTailRight l index size).length) :
    (shiftTailRight l index size)[i] = l[i] := by
  have hbase := List.get_mapIdx l
    (fun j x => if index < j ∧ j ≤ size then l.getD (j - 1) x else x) i h
  simp only [shiftTailRight, List.get_eq_getElem] at hbase ⊢
  rw [hbase, if_neg hn]

theorem length_shiftTailLeft (l : List α) (index size : Nat) :
    (shiftTailLeft l index size).length = l.length :=
  List.length_mapIdx

theorem getElem_shiftTailLeft_mem (l : List α) (index size i : Nat)
    (h : i < l.length) (hlo : index ≤ i) (hhi : i + 1 < size)
    (hs : size ≤ l.length)
    (h2 : i < (shiftTailLeft l index size).length) :
    (shiftTailLeft l index size)[i] = l.get ⟨i + 1, by omega⟩ := by
  have hbase := List.get_mapIdx l
    (fun j x => if index ≤ j ∧ j + 1 < size then l.getD (j + 1) x else x) i h
  simp only [shiftTailLeft, List.get_eq_getElem] at hbase ⊢
  rw [hbase, if_pos ⟨hlo, hhi⟩, List.getD_eq_getElem l _ (show i + 1 < l.length by omega)]

theorem getElem_shiftTailLeft_not (l : List α) (index size i : Nat)
    (h : i < l.length) (hn : ¬ (index ≤ i ∧ i + 1 < size))
    (h2 : i < (shiftTailLeft l index size).length) :
    (shiftTailLeft l index size)[i] = l[i] := by
  have hbase := List.get_mapIdx l
    (fun j x => if index ≤ j ∧ j + 1 < size then l.getD (j + 1) x else x) i h
  simp only [shiftTailLeft, List.get_eq_getElem] at hbase ⊢
  rw [hbase, if_neg hn]

theorem take_succ_set (l : List α) (k : Nat) (x : α) (h : k < l.length) :
    (l.set k x).take (k + 1) = l.take k ++ [x] := by
  induction l generalizing k with
  | nil => simp at h
  | cons a tl ih =>
    cases k with
    | zero => simp
    | succ k =>
      simp only [List.set_cons_succ, List.take_succ_cons, List.cons_append]
      rw [ih k (by simpa using h)]

theorem take_append_left (A B : List α) (n : Nat) (h : A.length = n) :
    (A ++ B).take n = A := by
  subst h; exact List.take_left A B

theorem fillRange_append_replicate (A : List α) (s n : Nat) (d : α)
    (hA : A.length = s) :
    fillRange (A ++ List.replicate (n - s) d) s n d
      = A ++ List.replicate (n - s) d := by
  apply List.ext_getElem
  · simp only [length_fillRange]
  · intro i h1 h2
    have hiL : i < (A ++ List.replicate (n - s) d).length := by
      simpa only [length_fillRange] using h1
    rw [getElem_fillRange _ _ _ _ _ hiL h1]
    split
    · next hcond =>
      rw [List.getElem_append_right (by omega)]
      exact (List.getElem_replicate _ _).symm
    · rfl

theorem insert_take (B : List α) (s index : Nat) (x : α)
    (hidx : index ≤ s) (hs : s < B.length) :
    ((shiftTailRight B index s).set index x).take (s + 1) =
      B.take index ++ x :: (B.take s).drop index := by
  have hA : (B.take index).length = index := by
    simp only [List.length_take]; omega
  have hD : ((B.take s).drop index).length = s - index := by
    simp only [List.length_drop, List.length_take]; omega
  have hlen : ((shiftTailRight B index s).set index x).length = B.length := by
    simp only [List.length_set, length_shiftTailRight]
  apply List.ext_getElem
  · simp only [List.length_take, hlen, List.length_append, List.length_cons, hA, hD]
    omega
  · intro i ha hb
    have hi : i < s + 1 := by
      simp only [List.length_take, hlen] at ha
      omega
    have hib : i < ((shiftTailRight B index s).set index x).length := by omega
    rw [List.getElem_take]
    rcases Nat.lt_trichotomy i index with hlt | heq | hgt
    · rw [List.getElem_set_ne (by omega) hib,
        getElem_shiftTailRight_not B index s i (by omega) (by omega),
        List.getElem_append_left (by omega), List.getElem_take]
    · subst heq
      rw [List.getElem_set_self hib, List.getElem_append_right (by omega)]
      simp only [hA, Nat.sub_self, List.getElem_cons_zero]
    · rw [List.getElem_set_ne (by omega) hib,
        getElem_shiftTailRight_mem B index s i (by omega) hgt (by omega)]
      simp only [List.get_eq_getElem]
      rw [List.getElem_append_right (by omega)]
      simp only [hA]
      rw [List.getElem_cons, dif_neg (by omega), List.getElem_drop,
        List.getElem_take]
      congr 1
      omega

theorem erase_take (B : List α) (s index : Nat)
    (hidx : index < s) (hs : s ≤ B.length) :
    (shiftTailLeft B index s).take (s - 1) =
      B.take index ++ (B.take s).drop (index + 1) := by
  have hA : (B.take index).length = index := by
    simp only [List.length_take]; omega
  have hD : ((B.take s).drop (index + 1)).length = s - index - 1 := by
    simp only [List.length_drop, List.length_take]; omega
  apply List.ext_getElem
  · simp only [List.length_take, length_shiftTailLeft, List.length_append, hA, hD]
    omega
  · intro i ha hb
    have hi : i < s - 1 := by
      simp only [List.length_take, length_shiftTailLeft] at ha
      omega
    rw [List.getElem_take]
    rcases Nat.lt_or_ge i index with hlt | hge
    · rw [getElem_shiftTailLeft_not B index s i (by omega) (by omega),
        List.getElem_append_left (by omega), List.getElem_take]
    · rw [getElem_shiftTailLeft_mem B index s i (by omega) hge (by omega) hs]
      simp only [List.get_eq_getElem]
      rw [List.getElem_append_right (by omega)]
      simp only [hA]
      rw [List.getElem_drop, List.getElem_take]
      congr 1
      omega

namespace SimpleVector

theorem length_toList (v : SimpleVector α) (h : v.Inv) :
    v.toList.length = v.size_ := by
  obtain ⟨h1, h2⟩ := h
  simp only [toList, List.length_take]
  omega

theorem Reserve_of_le (v : SimpleVector α) (n : Nat) (d : α)
    (h : ¬ v.capacity_ < n) : v.Reserve n d = v := by
  simp [Reserve, h]

theorem Reserve_eq_of_gt (v : SimpleVector α) (n : Nat) (d : α) (hInv : v.Inv)
    (h : v.capacity_ < n) :
    v.Reserve n d = ⟨v.toList ++ List.replicate (n - v.size_) d, v.size_, n⟩ := by
  have hl : (List.take v.size_ v.buffer).length = v.size_ := length_toList v hInv
  unfold Reserve
  rw [if_pos h, copyInto_allocBuffer, hl]
  exact rfl

theorem Reserve_size (v : SimpleVector α) (n : Nat) (d : α) :
    (v.Reserve n d).size_ = v.size_ := by
  unfold Reserve; split <;> rfl

theorem Reserve_capacity_of_gt (v : SimpleVector α) (n : Nat) (d : α)
    (h : v.capacity_ < n) : (v.Reserve n d).capacity_ = n := by
  unfold Reserve; rw [if_pos h]

theorem Inv_Reserve (v : SimpleVector α) (n : Nat) (d : α) (hInv : v.Inv) :
    (v.Reserve n d).Inv := by
  by_cases h : v.capacity_ < n
  · obtain ⟨h1, h2⟩ := hInv
    have hl : v.toList.length = v.size_ := length_toList v ⟨h1, h2⟩
    rw [Reserve_eq_of_gt v n d ⟨h1, h2⟩ h]
    refine ⟨?_, ?_⟩
    · show v.size_ ≤ n
      omega
    · show (v.toList ++ List.replicate (n - v.size_) d).length = n
      simp only [List.length_append, List.length_replicate, hl]
      omega
  · rw [Reserve_of_le v n d h]; exact hInv

theorem Reserve_toList (v : SimpleVector α) (n : Nat) (d : α) (hInv : v.Inv) :
    (v.Reserve n d).toList = v.toList := by
  by_cases h : v.capacity_ < n
  · rw [Reserve_eq_of_gt v n d hInv h]
    exact take_append_left _ _ _ (length_toList v hInv)
  · rw [Reserve_of_le v n d h]

theorem PushBack_size (v : SimpleVector α) (item d : α) :
    (v.PushBack item d).size_ = v.size_ + 1 := by
  simp only [PushBack]
  split
  · rfl
  · simp only [Reserve_size]

theorem PushBack_capacity (v : SimpleVector α) (item d : α) :
    (v.PushBack item d).capacity_ =
      if v.size_ < v.capacity_ then v.capacity_
      else if v.capacity_ = 0 then 1 else v.capacity_ * 2 := by
  simp only [PushBack]
  split
  · rfl
  · next h =>
    have hgt : v.capacity_ < (if v.capacity_ = 0 then 1 else v.capacity_ * 2) := by
      split <;> omega
    show (v.Reserve _ d).capacity_ = _
    exact Reserve_capacity_of_gt v _ d hgt

theorem PushBack_toList (v : SimpleVector α) (item d : α) (hInv : v.Inv) :
    (v.PushBack item d).toList = v.toList ++ [item] := by
  obtain ⟨h1, h2⟩ := hInv
  have hl : v.toList.length = v.size_ := length_toList v ⟨h1, h2⟩
  simp only [PushBack]
  split
  · next h =>
    show (v.buffer.set v.size_ item).take (v.size_ + 1) = _
    rw [take_succ_set v.buffer v.size_ item (by omega)]
    rfl
  · next h =>
    have hgt : v.capacity_ < (if v.capacity_ = 0 then 1 else v.capacity_ * 2) := by
      split <;> omega
    rw [Reserve_eq_of_gt v _ d ⟨h1, h2⟩ hgt]
    show ((v.toList ++ _).set v.size_ item).take (v.size_ + 1) = _
    rw [take_succ_set _ v.size_ item
      (by
        simp only [List.length_append, List.length_replicate, hl]
        omega),
      take_append_left _ _ _ hl]

theorem Inv_PushBack (v : SimpleVector α) (item d : α) (hInv : v.Inv) :
    (v.PushBack item d).Inv := by
  obtain ⟨h1, h2⟩ := hInv
  have hl : v.toList.length = v.size_ := length_toList v ⟨h1, h2⟩
  simp only [PushBack]
  split
  · next h =>
    refine ⟨?_, ?_⟩
    · show v.size_ + 1 ≤ v.capacity_
      omega
    · show (v.buffer.set v.size_ item).length = v.capacity_
      simp only [List.length_set]
      exact h2
  · next h =>
    have hgt : v.capacity_ < (if v.capacity_ = 0 then 1 else v.capacity_ * 2) := by
      split <;> omega
    rw [Reserve_eq_of_gt v _ d ⟨h1, h2⟩ hgt]
    refine ⟨?_, ?_⟩
    · show v.size_ + 1 ≤ _
      exact Nat.lt_of_le_of_lt h1 hgt
    · show ((v.toList ++ List.replicate _ d).set v.size_ item).length = _
      simp only [List.length_set, List.length_append, List.length_replicate, hl]
      omega

theorem PushBack_get (v : SimpleVector α) (item d : α) (hInv : v.Inv) :
    (v.PushBack item d).get v.size_ d = item := by
  obtain ⟨h1, h2⟩ := hInv
  have hl : v.toList.length = v.size_ := length_toList v ⟨h1, h2⟩
  simp only [PushBack, get]
  split
  · next h =>
    show (v.buffer.set v.size_ item).getD v.size_ d = item
    rw [List.getD_eq_getElem _ _ (by simp only [List.length_set]; omega)]
    exact List.getElem_set_self _
  · next h =>
    have hgt : v.capacity_ < (if v.capacity_ = 0 then 1 else v.capacity_ * 2) := by
      split <;> omega
    rw [Reserve_eq_of_gt v _ d ⟨h1, h2⟩ hgt]
    show ((v.toList ++ List.replicate _ d).set v.size_ item).getD v.size_ d = item
    rw [List.getD_eq_getElem _ _ (by
      simp only [List.length_set, List.length_append, List.length_replicate, hl]
      omega)]
    exact List.getElem_set_self _

theorem toList_take (v : SimpleVector α) (index : Nat) (h : index ≤ v.size_) :
    v.toList.take index = v.buffer.take index := by
  show (v.buffer.take v.size_).take index = _
  rw [List.take_take]
  congr 1
  omega

theorem Resize_le_eq (v : SimpleVector α) (n : Nat) (d : α) (h : n ≤ v.size_) :
    v.Resize n d = ⟨v.buffer, n, v.capacity_⟩ := by
  simp only [Resize]
  rw [if_pos h]

theorem Resize_mid_eq (v : SimpleVector α) (n : Nat) (d : α)
    (h1 : v.size_ < n) (h2 : n ≤ v.capacity_) :
    v.Resize n d = ⟨fillRange v.buffer v.size_ n d, n, v.capacity_⟩ := by
  simp only [Resize]
  rw [if_neg (by omega), if_pos h2]

theorem Resize_big_eq (v : SimpleVector α) (n : Nat) (d : α) (hInv : v.Inv)
    (h : v.capacity_ < n) :
    v.Resize n d =
      ⟨v.toList ++ List.replicate (max n (v.capacity_ * 2) - v.size_) d,
        n, max n (v.capacity_ * 2)⟩ := by
  obtain ⟨h1, h2⟩ := hInv
  have hl : (List.take v.size_ v.buffer).length = v.size_ :=
    length_toList v ⟨h1, h2⟩
  simp only [Resize]
  rw [if_neg (by omega), if_neg (by omega), copyInto_allocBuffer, hl,
    fillRange_append_replicate (List.take v.size_ v.buffer) v.size_
      (max n (v.capacity_ * 2)) d hl]
  exact rfl

theorem Resize_le_toList (v : SimpleVector α) (n : Nat) (d : α)
    (h : n ≤ v.size_) :
    (v.Resize n d).toList = v.toList.take n := by
  rw [Resize_le_eq v n d h]
  show v.buffer.take n = (v.buffer.take v.size_).take n
  rw [List.take_take]
  congr 1
  omega

theorem Resize_mid_toList (v : SimpleVector α) (n : Nat) (d : α) (hInv : v.Inv)
    (h1 : v.size_ < n) (h2 : n ≤ v.capacity_) :
    (v.Resize n d).toList = v.toList ++ List.replicate (n - v.size_) d := by
  obtain ⟨g1, g2⟩ := hInv
  rw [Resize_mid_eq v n d h1 h2]
  show (fillRange v.buffer v.size_ n d).take n = _
  simp only [toList]
  apply List.ext_getElem
  · simp only [List.length_take, length_fillRange, List.length_append,
      List.length_replicate]
    omega
  · intro i ha hb
    have hi : i < n := by
      simp only [List.length_take, length_fillRange] at ha
      omega
    have hbuf : i < v.buffer.length := by omega
    rw [List.getElem_take,
      getElem_fillRange _ _ _ _ _ hbuf (by simp only [length_fillRange]; omega)]
    split
    · next hcond =>
      rw [List.getElem_append_right (by simp only [List.length_take]; omega)]
      exact (List.getElem_replicate _ _).symm
    · next hcond =>
      have hlt : i < v.size_ := by omega
      rw [List.getElem_append_left
        (by simp only [List.length_take]; omega), List.getElem_take]

theorem Resize_big_toList (v : SimpleVector α) (n : Nat) (d : α) (hInv : v.Inv)
    (h : v.capacity_ < n) :
    (v.Resize n d).toList = v.toList ++ List.replicate (n - v.size_) d := by
  obtain ⟨g1, g2⟩ := hInv
  have hl : v.toList.length = v.size_ := length_toList v ⟨g1, g2⟩
  rw [Resize_big_eq v n d ⟨g1, g2⟩ h]
  show (v.toList ++ List.replicate (max n (v.capacity_ * 2) - v.size_) d).take n = _
  rw [List.take_append_eq_append_take, List.take_of_length_le (by omega), hl,
    List.take_replicate]
  congr 2
  omega

theorem Inv_Resize (v : SimpleVector α) (n : Nat) (d : α) (hInv : v.Inv) :
    (v.Resize n d).Inv := by
  obtain ⟨g1, g2⟩ := hInv
  have hl : v.toList.length = v.size_ := length_toList v ⟨g1, g2⟩
  rcases le_or_lt n v.size_ with h | h1
  · rw [Resize_le_eq v n d h]
    refine ⟨?_, g2⟩
    show n ≤ v.capacity_
    omega
  · rcases le_or_lt n v.capacity_ with h2 | h2
    · rw [Resize_mid_eq v n d h1 h2]
      refine ⟨h2, ?_⟩
      show (fillRange v.buffer v.size_ n d).length = v.capacity_
      simp only [length_fillRange]
      exact g2
    · rw [Resize_big_eq v n d ⟨g1, g2⟩ h2]
      refine ⟨?_, ?_⟩
      · show n ≤ max n (v.capacity_ * 2)
        omega
      · show (v.toList ++ List.replicate (max n (v.capacity_ * 2) - v.size_) d).length = _
        simp only [List.length_append, List.length_replicate, hl]
        omega

theorem Insert_eq_of_lt (v : SimpleVector α) (index : Nat) (x d : α)
    (h : v.size_ < v.capacity_) :
    v.Insert index x d =
      (⟨(shiftTailRight v.buffer index v.size_).set index x,
        v.size_ + 1, v.capacity_⟩, index) := by
  simp only [Insert]
  rw [if_neg (by omega)]

theorem Insert_eq_of_ge (v : SimpleVector α) (index : Nat) (x d : α)
    (hInv : v.Inv) (h : ¬ v.size_ < v.capacity_) :
    v.Insert index x d =
      (⟨(shiftTailRight
          (v.toList ++ List.replicate
            ((if v.capacity_ = 0 then 1 else v.capacity_ * 2) - v.size_) d)
          index v.size_).set index x,
        v.size_ + 1,
        if v.capacity_ = 0 then 1 else v.capacity_ * 2⟩, index) := by
  have hgt : v.capacity_ < (if v.capacity_ = 0 then 1 else v.capacity_ * 2) := by
    split <;> omega
  simp only [Insert]
  rw [if_pos (by omega), Reserve_eq_of_gt v _ d hInv hgt]

theorem Insert_snd (v : SimpleVector α) (index : Nat) (x d : α) :
    (v.Insert index x d).2 = index := by
  simp only [Insert]

theorem Insert_size (v : SimpleVector α) (index : Nat) (x d : α) :
    (v.Insert index x d).1.size_ = v.size_ + 1 := by
  simp only [Insert]
  split
  · show (v.Reserve _ d).size_ + 1 = v.size_ + 1
    rw [Reserve_size]
  · rfl

theorem Insert_capacity (v : SimpleVector α) (index : Nat) (x d : α) :
    (v.Insert index x d).1.capacity_ =
      if v.size_ ≥ v.capacity_ then
        (if v.capacity_ = 0 then 1 else v.capacity_ * 2)
      else v.capacity_ := by
  simp only [Insert]
  split <;> rfl

theorem Inv_Insert (v : SimpleVector α) (index : Nat) (x d : α)
    (hInv : v.Inv) : (v.Insert index x d).1.Inv := by
  obtain ⟨h1, h2⟩ := hInv
  have hl : v.toList.length = v.size_ := length_toList v ⟨h1, h2⟩
  by_cases h : v.size_ < v.capacity_
  · rw [Insert_eq_of_lt v index x d h]
    refine ⟨?_, ?_⟩
    · show v.size_ + 1 ≤ v.capacity_
      omega
    · show ((shiftTailRight v.buffer index v.size_).set index x).length = v.capacity_
      simp only [List.length_set, length_shiftTailRight]
      exact h2
  · have hgt : v.capacity_ < (if v.capacity_ = 0 then 1 else v.capacity_ * 2) := by
      split <;> omega
    rw [Insert_eq_of_ge v index x d ⟨h1, h2⟩ h]
    refine ⟨?_, ?_⟩
    · show v.size_ + 1 ≤ (if v.capacity_ = 0 then 1 else v.capacity_ * 2)
      generalize hnc : (if v.capacity_ = 0 then 1 else v.capacity_ * 2) = nc at hgt ⊢
      omega
    · show ((shiftTailRight (v.toList ++ List.replicate _ d) index v.size_).set
        index x).length = _
      simp only [List.length_set, length_shiftTailRight, List.length_append,
        List.length_replicate, hl]
      generalize hnc : (if v.capacity_ = 0 then 1 else v.capacity_ * 2) = nc at hgt ⊢
      omega

theorem Insert_toList (v : SimpleVector α) (index : Nat) (x d : α)
    (hInv : v.Inv) (hidx : index ≤ v.size_) :
    (v.Insert index x d).1.toList =
      v.toList.take index ++ x :: v.toList.drop index := by
  obtain ⟨h1, h2⟩ := hInv
  have hl : v.toList.length = v.size_ := length_toList v ⟨h1, h2⟩
  by_cases h : v.size_ < v.capacity_
  · rw [Insert_eq_of_lt v index x d h]
    show ((shiftTailRight v.buffer index v.size_).set index x).take (v.size_ + 1) = _
    rw [insert_take v.buffer v.size_ index x hidx (by omega),
      toList_take v index hidx]
    exact rfl
  · have hgt : v.capacity_ < (if v.capacity_ = 0 then 1 else v.capacity_ * 2) := by
      split <;> omega
    rw [Insert_eq_of_ge v index x d ⟨h1, h2⟩ h]
    show ((shiftTailRight
        (v.toList ++ List.replicate _ d) index v.size_).set index x).take
        (v.size_ + 1) = _
    rw [insert_take _ v.size_ index x hidx
      (by
        simp only [List.length_append, List.length_replicate, hl]
        generalize hnc : (if v.capacity_ = 0 then 1 else v.capacity_ * 2) = nc at hgt ⊢
        omega)]
    rw [take_append_left _ _ _ hl, List.take_append_eq_append_take, hl,
      show index - v.size_ = 0 from by omega, List.take_zero, List.append_nil]

theorem Insert_get (v : SimpleVector α) (index : Nat) (x d : α)
    (hInv : v.Inv) (hidx : index ≤ v.size_) :
    (v.Insert index x d).1.get index d = x := by
  obtain ⟨h1, h2⟩ := hInv
  have hl : v.toList.length = v.size_ := length_toList v ⟨h1, h2⟩
  by_cases h : v.size_ < v.capacity_
  · rw [Insert_eq_of_lt v index x d h]
    show ((shiftTailRight v.buffer index v.size_).set index x).getD index d = x
    rw [List.getD_eq_getElem _ _
      (by simp only [List.length_set, length_shiftTailRight]; omega)]
    exact List.getElem_set_self _
  · have hgt : v.capacity_ < (if v.capacity_ = 0 then 1 else v.capacity_ * 2) := by
      split <;> omega
    rw [Insert_eq_of_ge v index x d ⟨h1, h2⟩ h]
    show ((shiftTailRight (v.toList ++ List.replicate _ d) index v.size_).set
        index x).getD index d = x
    rw [List.getD_eq_getElem _ _
      (by
        simp only [List.length_set, length_shiftTailRight, List.length_append,
          List.length_replicate, hl]
        generalize hnc : (if v.capacity_ = 0 then 1 else v.capacity_ * 2) = nc at hgt ⊢
        omega)]
    exact List.getElem_set_self _

theorem Erase_eq (v : SimpleVector α) (index : Nat) :
    v.Erase index =
      (⟨shiftTailLeft v.buffer index v.size_, v.size_ - 1, v.capacity_⟩,
        index) := rfl

theorem Erase_toList (v : SimpleVector α) (index : Nat) (hInv : v.Inv)
    (h : index < v.size_) :
    (v.Erase index).1.toList =
      v.toList.take index ++ v.toList.drop (index + 1) := by
  obtain ⟨h1, h2⟩ := hInv
  show (shiftTailLeft v.buffer index v.size_).take (v.size_ - 1) = _
  rw [erase_take v.buffer v.size_ index h (by omega),
    toList_take v index (by omega)]
  exact rfl

theorem Inv_Erase (v : SimpleVector α) (index : Nat) (hInv : v.Inv) :
    (v.Erase index).1.Inv := by
  obtain ⟨h1, h2⟩ := hInv
  refine ⟨?_, ?_⟩
  · show v.size_ - 1 ≤ v.capacity_
    omega
  · show (shiftTailLeft v.buffer index v.size_).length = v.capacity_
    simp only [length_shiftTailLeft]
    exact h2

theorem Erase_get (v : SimpleVector α) (index : Nat) (d : α) (hInv : v.Inv)
    (h : index + 1 < v.size_) :
    (v.Erase index).1.get index d = v.get (index + 1) d := by
  obtain ⟨h1, h2⟩ := hInv
  show (shiftTailLeft v.buffer index v.size_).getD index d =
    v.buffer.getD (index + 1) d
  rw [List.getD_eq_getElem _ _ (by simp only [length_shiftTailLeft]; omega),
    List.getD_eq_getElem _ _ (by omega),
    getElem_shiftTailLeft_mem v.buffer index v.size_ index (by omega)
      (Nat.le_refl index) h (by omega)]
  simp only [List.get_eq_getElem]

theorem get_eq_toList_getD (v : SimpleVector α) (i : Nat) (dd : α)
    (hInv : v.Inv) (h : i < v.size_) : v.get i dd = v.toList.getD i dd := by
  obtain ⟨h1, h2⟩ := hInv
  have hl : v.toList.length = v.size_ := length_toList v ⟨h1, h2⟩
  unfold get
  rw [List.getD_eq_getElem _ _ (by omega), List.getD_eq_getElem _ _ (by omega)]
  exact (List.getElem_take _).symm

theorem toList_eq_iff_getD (a b : SimpleVector α) (ha : a.Inv) (hb : b.Inv) :
    a.toList = b.toList ↔
      (a.size_ = b.size_ ∧
        ∀ i, i < a.size_ → ∀ dd : α, a.get i dd = b.get i dd) := by
  have la : a.toList.length = a.size_ := length_toList a ha
  have lb : b.toList.length = b.size_ := length_toList b hb
  constructor
  · intro h
    have hsz : a.size_ = b.size_ := by rw [← la, ← lb, h]
    refine ⟨hsz, ?_⟩
    intro i hi dd
    rw [get_eq_toList_getD a i dd ha hi, get_eq_toList_getD b i dd hb (by omega),
      h]
  · rintro ⟨hsz, hpt⟩
    apply List.ext_getElem
    · omega
    · intro i hi1 hi2
      have hi : i < a.size_ := by omega
      have hib : i < b.size_ := by omega
      have hd := hpt i hi (a.toList.get ⟨i, hi1⟩)
      rw [get_eq_toList_getD a i _ ha hi, get_eq_toList_getD b i _ hb hib,
        List.getD_eq_getElem _ _ hi1, List.getD_eq_getElem _ _ hi2] at hd
      exact hd

theorem veq_iff_toList [DecidableEq α] (a b : SimpleVector α)
    (ha : a.Inv) (hb : b.Inv) :
    veq a b = true ↔ a.toList = b.toList := by
  unfold veq GetSize
  split
  · next h => simp only [beq_iff_eq]
  · next h =>
    simp only [Bool.false_eq_true, false_iff]
    intro hcontra
    apply h
    have la := length_toList a ha
    have lb := length_toList b hb
    rw [← la, ← lb, hcontra]

end SimpleVector

theorem Inv_applyOp (d : α) (op : Op α) (v : SimpleVector α)
    (hInv : v.Inv) : (applyOp d op v).Inv := by
  cases op with
  | pushBack x => exact SimpleVector.Inv_PushBack v x d hInv
  | popBack =>
    obtain ⟨h1, h2⟩ := hInv
    refine ⟨?_, h2⟩
    show v.size_ - 1 ≤ v.capacity_
    omega
  | insert i x => exact SimpleVector.Inv_Insert v i x d hInv
  | erase i => exact SimpleVector.Inv_Erase v i hInv
  | resize n => exact SimpleVector.Inv_Resize v n d hInv
  | reserve n => exact SimpleVector.Inv_Reserve v n d hInv
  | clear => exact SimpleVector.Inv_Resize v 0 d hInv

theorem Inv_runOps (d : α) :
    ∀ (ops : List (Op α)) (v : SimpleVector α),
      v.Inv → opsPre d v ops → (runOps d v ops).Inv
  | [], _, h, _ => h
  | op :: rest, v, h, hpre =>
    Inv_runOps d rest (applyOp d op v) (Inv_applyOp d op v h) hpre.2

theorem pushMany_spec (d : α) (xs : List α) :
    ∀ (v : SimpleVector α), v.Inv →
      (SimpleVector.pushMany d v xs).Inv ∧
      (SimpleVector.pushMany d v xs).size_ = v.size_ + xs.length ∧
      (SimpleVector.pushMany d v xs).toList = v.toList ++ xs := by
  induction xs with
  | nil =>
    intro v h
    refine ⟨h, ?_, ?_⟩ <;> simp [SimpleVector.pushMany]
  | cons x rest ih =>
    intro v h
    have hstep : (v.PushBack x d).Inv := SimpleVector.Inv_PushBack v x d h
    have hrec := ih (v.PushBack x d) hstep
    simp only [SimpleVector.pushMany, List.foldl_cons] at hrec ⊢
    obtain ⟨i1, i2, i3⟩ := hrec
    refine ⟨i1, ?_, ?_⟩
    · rw [i2, SimpleVector.PushBack_size]
      simp only [List.length_cons]
      omega
    · rw [i3, SimpleVector.PushBack_toList v x d h]
      simp

namespace SimpleVector

theorem lexCompare_iff_Lex [LinearOrder α] :
    ∀ (as bs : List α), lexCompare as bs = true ↔ List.Lex (· < ·) as bs
  | [], [] => by
    constructor
    · intro h; simp [lexCompare] at h
    · intro h; cases h
  | [], b :: bs => by
    constructor
    · intro _; exact List.Lex.nil
    · intro _; simp [lexCompare]
  | a :: as, [] => by
    constructor
    · intro h; simp [lexCompare] at h
    · intro h; cases h
  | a :: as, b :: bs => by
    constructor
    · intro h
      simp only [lexCompare] at h
      by_cases hab : a < b
      · exact List.Lex.rel hab
      · rw [if_neg hab] at h
        by_cases hba : b < a
        · rw [if_pos hba] at h
          simp at h
        · rw [if_neg hba] at h
          have heq : a = b := le_antisymm (le_of_not_lt hba) (le_of_not_lt hab)
          subst heq
          exact List.Lex.cons ((lexCompare_iff_Lex as bs).1 h)
    · intro h
      cases h with
      | rel hr => simp [lexCompare, if_pos hr]
      | cons ht =>
        simp only [lexCompare, lt_self_iff_false, if_false]
        exact (lexCompare_iff_Lex as bs).2 ht

theorem lexCompare_irrefl [LinearOrder α] :
    ∀ (as : List α), lexCompare as as = false
  | [] => by simp [lexCompare]
  | a :: as => by simp [lexCompare, lexCompare_irrefl as]

theorem lexCompare_asymm [LinearOrder α] :
    ∀ (as bs : List α), lexCompare as bs = true → lexCompare bs as = false
  | [], [] => by simp [lexCompare]
  | [], b :: bs => by simp [lexCompare]
  | a :: as, [] => by simp [lexCompare]
  | a :: as, b :: bs => by
    intro h
    simp only [lexCompare] at h ⊢
    by_cases hab : a < b
    · rw [if_neg (lt_asymm hab), if_pos hab]
    · rw [if_neg hab] at h
      by_cases hba : b < a
      · rw [if_pos hba] at h
        simp at h
      · rw [if_neg hba] at h
        rw [if_neg hba, if_neg hab]
        exact lexCompare_asymm as bs h

theorem lexCompare_trichotomy [LinearOrder α] :
    ∀ (as bs : List α),
      lexCompare as bs = true ∨ lexCompare bs as = true ∨ as = bs
  | [], [] => Or.inr (Or.inr rfl)
  | [], _ :: _ => Or.inl (by simp [lexCompare])
  | _ :: _, [] => Or.inr (Or.inl (by simp [lexCompare]))
  | a :: as, b :: bs => by
    rcases lt_trichotomy a b with h | h | h
    · exact Or.inl (by simp [lexCompare, if_pos h])
    · subst h
      rcases lexCompare_trichotomy as bs with h2 | h2 | h2
      · refine Or.inl ?_
        simp only [lexCompare, lt_self_iff_false, if_false]
        exact h2
      · refine Or.inr (Or.inl ?_)
        simp only [lexCompare, lt_self_iff_false, if_false]
        exact h2
      · exact Or.inr (Or.inr (by rw [h2]))
    · exact Or.inr (Or.inl (by simp [lexCompare, if_pos h]))

theorem lexCompare_false_iff [LinearOrder α] (as bs : List α) :
    lexCompare as bs = false ↔ (lexCompare bs as = true ∨ as = bs) := by
  constructor
  · intro h
    rcases lexCompare_trichotomy as bs with h1 | h1 | h1
    · rw [h1] at h
      simp at h
    · exact Or.inl h1
    · exact Or.inr h1
  · intro h
    rcases h with h | h
    · exact lexCompare_asymm bs as h
    · subst h
      exact lexCompare_irrefl as

end SimpleVector

/-- C1: the copy constructor evaluated at a source with spare capacity
(`fromList [7]` grown to capacity 2 by `Reserve`): the copy records
`capacity_ = 2` — the source's capacity — while allocating only
`1 = other.GetSize()` buffer slots, contradicting the claimed
"capacity equals the source's logical size" (which would be 1) and leaving
`capacity_` larger than the allocated buffer. -/
theorem C1_copyCtor_capacity_bug :
    (SimpleVector.copyCtor
      (SimpleVector.Reserve (SimpleVector.fromList [7] 0) 2 0) 0).capacity_ = 2 ∧
    (SimpleVector.copyCtor
      (SimpleVector.Reserve (SimpleVector.fromList [7] 0) 2 0) 0).buffer.length = 1 ∧
    (SimpleVector.Reserve (SimpleVector.fromList [7] 0) 2 0).size_ = 1 ∧
    (SimpleVector.Reserve (SimpleVector.fromList [7] 0) 2 0).capacity_ = 2 := by
  decide

/-- C2 counterexample: a vector produced by the capacity-hint constructor
with hint 1 has `capacity_ = 1` but a backing buffer of allocated length 0,
so its capacity field does not equal the allocated length of its backing
buffer. -/
theorem C2_counterexample :
    ¬ ((SimpleVector.reserveCtor (MakeReserveHint 1) : SimpleVector Nat).buffer.length =
      (SimpleVector.reserveCtor (MakeReserveHint 1) : SimpleVector Nat).capacity_) := by
  decide

/-- C2 (amended): every constructor establishes `0 ≤ size ≤ capacity`, and
every sequence of precondition-respecting public operations preserves the
full invariant `size ≤ capacity ∧ capacity = allocated buffer length`; the
default, sized, sized-with-value, initializer-list and move constructors
establish the full invariant, but the capacity-hint constructor yields
buffer length 0 with `capacity_ = hint`, and the copy constructor yields
buffer length `source.size` with `capacity_ = source.capacity`, so for
those two the buffer-length equation holds only when the hint is 0,
respectively when the source has no spare capacity. -/
theorem C2_invariants (d : α) :
    (SimpleVector.mkDefault : SimpleVector α).Inv ∧
    (∀ n : Nat, (SimpleVector.mkSized n d).Inv) ∧
    (∀ (n : Nat) (x : α), (SimpleVector.mkSizedValue n x d).Inv) ∧
    (∀ init : List α, (SimpleVector.fromList init d).Inv) ∧
    (∀ v : SimpleVector α, v.Inv →
      (SimpleVector.moveCtor v).1.Inv ∧ (SimpleVector.moveCtor v).2.Inv) ∧
    (∀ v : SimpleVector α, v.Inv → ∀ ops : List (Op α),
      opsPre d v ops → (runOps d v ops).Inv) ∧
    (∀ obj : ReserveProxyObj,
      (SimpleVector.reserveCtor obj : SimpleVector α).size_ ≤
        (SimpleVector.reserveCtor obj : SimpleVector α).capacity_ ∧
      (SimpleVector.reserveCtor obj : SimpleVector α).buffer.length = 0 ∧
      (SimpleVector.reserveCtor obj : SimpleVector α).capacity_ =
        obj.GetCapacity) ∧
    (∀ v : SimpleVector α, v.Inv →
      (v.copyCtor d).size_ ≤ (v.copyCtor d).capacity_ ∧
      (v.copyCtor d).capacity_ = v.capacity_ ∧
      (v.copyCtor d).buffer.length = v.size_) := by
  refine ⟨⟨Nat.le_refl 0, rfl⟩, ?_, ?_, ?_, ?_, ?_, ?_, ?_⟩
  · intro n
    refine ⟨Nat.le_refl n, ?_⟩
    show (copyInto (List.replicate n d) (allocBuffer n d)).length = n
    simp [copyInto, allocBuffer]
  · intro n x
    refine ⟨Nat.le_refl n, ?_⟩
    show (copyInto (List.replicate n x) (allocBuffer n d)).length = n
    simp [copyInto, allocBuffer]
  · intro init
    refine ⟨Nat.le_refl _, ?_⟩
    show (copyInto init (allocBuffer init.length d)).length = init.length
    simp [copyInto, allocBuffer]
  · intro v hInv
    exact ⟨hInv, Nat.le_refl 0, rfl⟩
  · intro v hInv ops hpre
    exact Inv_runOps d ops v hInv hpre
  · intro obj
    exact ⟨Nat.zero_le _, rfl, rfl⟩
  · intro v hInv
    obtain ⟨h1, h2⟩ := hInv
    have hl : (List.take v.size_ v.buffer).length = v.size_ :=
      SimpleVector.length_toList v ⟨h1, h2⟩
    refine ⟨h1, rfl, ?_⟩
    show (copyInto (v.buffer.take v.size_) (allocBuffer v.size_ d)).length = v.size_
    rw [copyInto_allocBuffer, hl]
    simp only [List.length_append, List.length_replicate, hl]
    omega

/-- C2 witness: the invariant holds after a concrete precondition-respecting
operation sequence run from a default-constructed vector. -/
theorem C2_invariants_witness :
    (runOps 0 (SimpleVector.mkDefault : SimpleVector Nat)
      [Op.pushBack 5, Op.insert 0 7, Op.erase 1, Op.popBack]).Inv :=
  (C2_invariants (0 : Nat)).2.2.2.2.2.1 SimpleVector.mkDefault (by decide)
    [Op.pushBack 5, Op.insert 0 7, Op.erase 1, Op.popBack] (by decide)

/-- C3: checked access `At(i)` fails with the out-of-range error exactly
when `i >= size` (in particular always when the size is 0), and on every
valid index `i < size` it returns exactly the value of the unchecked
`operator[]`. -/
theorem C3_At_spec (v : SimpleVector α) (i : Nat) (d : α) :
    ((∃ msg, v.At i d = Except.error msg) ↔ v.size_ ≤ i) ∧
    (i < v.size_ → v.At i d = Except.ok (v.get i d)) := by
  unfold SimpleVector.At
  constructor
  · constructor
    · rintro ⟨msg, hm⟩
      by_contra hlt
      rw [if_neg (by omega)] at hm
      cases hm
    · intro hge
      exact ⟨"Out of range", by rw [if_pos hge]⟩
  · intro hlt
    rw [if_neg (by omega)]

/-- C3 witness: at size 2, index 5 errors and index 1 agrees with unchecked
access. -/
theorem C3_At_witness :
    ((∃ msg, (SimpleVector.fromList [4, 6] 0).At 5 0 = Except.error msg) ↔
      (SimpleVector.fromList [4, 6] 0).size_ ≤ 5) ∧
    (SimpleVector.fromList [4, 6] 0).At 1 0 =
      Except.ok ((SimpleVector.fromList [4, 6] 0).get 1 0) :=
  ⟨(C3_At_spec (SimpleVector.fromList [4, 6] 0) 5 0).1,
    (C3_At_spec (SimpleVector.fromList [4, 6] 0) 1 0).2 (by decide)⟩

/-- C10: `swap` exchanges the complete contents of the two vectors — sizes,
capacities and backing buffers (hence element sequences) — and swapping the
same pair twice restores both original vectors. -/
theorem C10_swap_spec (a b : SimpleVector α) :
    (a.swap b).1.size_ = b.size_ ∧ (a.swap b).1.capacity_ = b.capacity_ ∧
    (a.swap b).1.buffer = b.buffer ∧
    (a.swap b).2.size_ = a.size_ ∧ (a.swap b).2.capacity_ = a.capacity_ ∧
    (a.swap b).2.buffer = a.buffer ∧
    (a.swap b).1.swap (a.swap b).2 = (a, b) :=
  ⟨rfl, rfl, rfl, rfl, rfl, rfl, rfl⟩

/-- C4: one `PushBack` (either overload): below capacity the new element
lands in slot `size` with size incremented and capacity unchanged;
at capacity the capacity becomes 1 (from 0) or doubles, the element is
placed and size incremented; in both cases the live sequence gains the
element at the tail, and n `PushBack` calls from an empty vector give
`size = n` with the elements in insertion order. -/
theorem C4_PushBack_spec (d : α) :
    (∀ (v : SimpleVector α) (x : α), v.Inv →
      (v.size_ < v.capacity_ →
        (v.PushBack x d).get v.size_ d = x ∧
        (v.PushBack x d).size_ = v.size_ + 1 ∧
        (v.PushBack x d).capacity_ = v.capacity_) ∧
      (¬ v.size_ < v.capacity_ →
        (v.PushBack x d).capacity_ =
          (if v.capacity_ = 0 then 1 else v.capacity_ * 2) ∧
        (v.PushBack x d).get v.size_ d = x ∧
        (v.PushBack x d).size_ = v.size_ + 1) ∧
      (v.PushBack x d).toList = v.toList ++ [x]) ∧
    (∀ xs : List α,
      (SimpleVector.pushMany d SimpleVector.mkDefault xs).size_ = xs.length ∧
      (SimpleVector.pushMany d SimpleVector.mkDefault xs).toList = xs) := by
  constructor
  · intro v x hInv
    refine ⟨?_, ?_, SimpleVector.PushBack_toList v x d hInv⟩
    · intro h
      exact ⟨SimpleVector.PushBack_get v x d hInv,
        SimpleVector.PushBack_size v x d,
        by rw [SimpleVector.PushBack_capacity, if_pos h]⟩
    · intro h
      exact ⟨by rw [SimpleVector.PushBack_capacity, if_neg h],
        SimpleVector.PushBack_get v x d hInv,
        SimpleVector.PushBack_size v x d⟩
  · intro xs
    obtain ⟨_, h2, h3⟩ :=
      pushMany_spec d xs SimpleVector.mkDefault ⟨Nat.le_refl 0, rfl⟩
    constructor
    · simpa [SimpleVector.mkDefault] using h2
    · simpa [SimpleVector.mkDefault, SimpleVector.toList] using h3

/-- C4 witness: a vector with spare capacity receives the pushed element at
slot `size`, and pushing 1, 2, 3 onto an empty vector yields exactly
`[1, 2, 3]`. -/
theorem C4_PushBack_witness :
    ((SimpleVector.Reserve (SimpleVector.fromList [3] 0) 2 0).PushBack 9 0).get
      (SimpleVector.Reserve (SimpleVector.fromList [3] 0) 2 0).size_ 0 = 9 ∧
    (SimpleVector.pushMany 0 SimpleVector.mkDefault [1, 2, 3]).toList =
      [1, 2, 3] :=
  ⟨(((C4_PushBack_spec (0 : Nat)).1
      (SimpleVector.Reserve (SimpleVector.fromList [3] 0) 2 0) 9
      (by decide)).1 (by decide)).1,
    ((C4_PushBack_spec (0 : Nat)).2 [1, 2, 3]).2⟩

/-- C5: `Insert` at offset `index ≤ size`: doubles the capacity first when
full (1 from capacity 0), shifts the elements at or after the offset one
slot tailward, places the value at the freed slot, increments size, and
returns the inserted element's offset, where the value is found. -/
theorem C5_Insert_spec (v : SimpleVector α) (index : Nat) (x d : α)
    (hInv : v.Inv) (hidx : index ≤ v.size_) :
    (v.Insert index x d).2 = index ∧
    (v.Insert index x d).1.size_ = v.size_ + 1 ∧
    (v.Insert index x d).1.capacity_ =
      (if v.size_ ≥ v.capacity_ then
        (if v.capacity_ = 0 then 1 else v.capacity_ * 2)
      else v.capacity_) ∧
    (v.Insert index x d).1.toList =
      v.toList.take index ++ x :: v.toList.drop index ∧
    (v.Insert index x d).1.get index d = x :=
  ⟨SimpleVector.Insert_snd v index x d, SimpleVector.Insert_size v index x d,
    SimpleVector.Insert_capacity v index x d,
    SimpleVector.Insert_toList v index x d hInv hidx,
    SimpleVector.Insert_get v index x d hInv hidx⟩

/-- C5 witness: inserting 9 at offset 1 of the full two-element vector
`[1, 2]`. -/
theorem C5_Insert_witness :
    ((SimpleVector.fromList [1, 2] 0).Insert 1 9 0).1.toList =
      (SimpleVector.fromList [1, 2] 0).toList.take 1 ++ 9 ::
        (SimpleVector.fromList [1, 2] 0).toList.drop 1 ∧
    ((SimpleVector.fromList [1, 2] 0).Insert 1 9 0).2 = 1 :=
  ⟨(C5_Insert_spec (SimpleVector.fromList [1, 2] 0) 1 9 0 (by decide)
      (by decide)).2.2.2.1,
    (C5_Insert_spec (SimpleVector.fromList [1, 2] 0) 1 9 0 (by decide)
      (by decide)).1⟩

/-- C6: `Erase` at offset `index < size` shifts the elements after the
offset one slot headward preserving their order, decrements size, keeps the
capacity, and returns the offset, which now holds the element that followed
the erased one — or equals the new size (i.e. `end()`) when the last
element was erased. -/
theorem C6_Erase_spec (v : SimpleVector α) (index : Nat) (d : α)
    (hInv : v.Inv) (h : index < v.size_) :
    (v.Erase index).2 = index ∧
    (v.Erase index).1.size_ = v.size_ - 1 ∧
    (v.Erase index).1.capacity_ = v.capacity_ ∧
    (v.Erase index).1.toList =
      v.toList.take index ++ v.toList.drop (index + 1) ∧
    (index + 1 < v.size_ →
      (v.Erase index).1.get index d = v.get (index + 1) d) ∧
    (index + 1 = v.size_ → (v.Erase index).2 = (v.Erase index).1.size_) := by
  refine ⟨rfl, rfl, rfl, SimpleVector.Erase_toList v index hInv h,
    fun h2 => SimpleVector.Erase_get v index d hInv h2, ?_⟩
  intro he
  show index = v.size_ - 1
  omega

/-- C6 witness: erasing offset 1 of `[1, 2, 3]`. -/
theorem C6_Erase_witness :
    ((SimpleVector.fromList [1, 2, 3] 0).Erase 1).1.toList =
      (SimpleVector.fromList [1, 2, 3] 0).toList.take 1 ++
        (SimpleVector.fromList [1, 2, 3] 0).toList.drop 2 ∧
    ((SimpleVector.fromList [1, 2, 3] 0).Erase 1).1.get 1 0 =
      (SimpleVector.fromList [1, 2, 3] 0).get 2 0 :=
  ⟨(C6_Erase_spec (SimpleVector.fromList [1, 2, 3] 0) 1 0 (by decide)
      (by decide)).2.2.2.1,
    (C6_Erase_spec (SimpleVector.fromList [1, 2, 3] 0) 1 0 (by decide)
      (by decide)).2.2.2.2.1 (by decide)⟩

/-- C7: `Reserve(n)` with `n <= capacity` leaves the vector entirely
unchanged; with `n > capacity` it sets the capacity to exactly `n` while
preserving the size and the values and order of the live elements. -/
theorem C7_Reserve_spec (v : SimpleVector α) (n : Nat) (d : α)
    (hInv : v.Inv) :
    (n ≤ v.capacity_ → v.Reserve n d = v) ∧
    (v.capacity_ < n →
      (v.Reserve n d).capacity_ = n ∧
      (v.Reserve n d).size_ = v.size_ ∧
      (v.Reserve n d).toList = v.toList) := by
  constructor
  · intro h
    exact SimpleVector.Reserve_of_le v n d (by omega)
  · intro h
    exact ⟨SimpleVector.Reserve_capacity_of_gt v n d h,
      SimpleVector.Reserve_size v n d,
      SimpleVector.Reserve_toList v n d hInv⟩

/-- C7 witness: `Reserve 2` then `Reserve 1` on a one-element vector — the
growth sets capacity 2 preserving the element, and the no-op branch leaves
the grown vector literally unchanged. -/
theorem C7_Reserve_witness :
    (SimpleVector.Reserve (SimpleVector.Reserve (SimpleVector.fromList [5] 0) 2 0)
      1 0 = SimpleVector.Reserve (SimpleVector.fromList [5] 0) 2 0) ∧
    (SimpleVector.Reserve (SimpleVector.fromList [5] 0) 2 0).capacity_ = 2 ∧
    (SimpleVector.Reserve (SimpleVector.fromList [5] 0) 2 0).toList =
      (SimpleVector.fromList [5] 0).toList :=
  ⟨(C7_Reserve_spec (SimpleVector.Reserve (SimpleVector.fromList [5] 0) 2 0) 1 0
      (by decide)).1 (by decide),
    ((C7_Reserve_spec (SimpleVector.fromList [5] 0) 2 0 (by decide)).2
      (by decide)).1,
    ((C7_Reserve_spec (SimpleVector.fromList [5] 0) 2 0 (by decide)).2
      (by decide)).2.2⟩

/-- C8: `Resize(n)`: shrinking keeps capacity and the first `n` elements;
growing within capacity appends `n - size` fresh default values with
capacity unchanged; growing beyond capacity sets capacity
`max n (capacity * 2)`, preserves the live prefix in order, and
default-initializes every remaining allocated slot up to the new
capacity. -/
theorem C8_Resize_spec (v : SimpleVector α) (n : Nat) (d : α)
    (hInv : v.Inv) :
    (n ≤ v.size_ →
      (v.Resize n d).size_ = n ∧
      (v.Resize n d).capacity_ = v.capacity_ ∧
      (v.Resize n d).toList = v.toList.take n) ∧
    (v.size_ < n → n ≤ v.capacity_ →
      (v.Resize n d).size_ = n ∧
      (v.Resize n d).capacity_ = v.capacity_ ∧
      (v.Resize n d).toList = v.toList ++ List.replicate (n - v.size_) d) ∧
    (v.capacity_ < n →
      (v.Resize n d).size_ = n ∧
      (v.Resize n d).capacity_ = max n (v.capacity_ * 2) ∧
      (v.Resize n d).toList = v.toList ++ List.replicate (n - v.size_) d ∧
      (v.Resize n d).buffer =
        v.toList ++ List.replicate (max n (v.capacity_ * 2) - v.size_) d) := by
  refine ⟨?_, ?_, ?_⟩
  · intro h
    refine ⟨?_, ?_, SimpleVector.Resize_le_toList v n d h⟩
    · rw [SimpleVector.Resize_le_eq v n d h]
    · rw [SimpleVector.Resize_le_eq v n d h]
  · intro h1 h2
    refine ⟨?_, ?_, SimpleVector.Resize_mid_toList v n d hInv h1 h2⟩
    · rw [SimpleVector.Resize_mid_eq v n d h1 h2]
    · rw [SimpleVector.Resize_mid_eq v n d h1 h2]
  · intro h
    refine ⟨?_, ?_, SimpleVector.Resize_big_toList v n d hInv h, ?_⟩
    · rw [SimpleVector.Resize_big_eq v n d hInv h]
    · rw [SimpleVector.Resize_big_eq v n d hInv h]
    · rw [SimpleVector.Resize_big_eq v n d hInv h]

/-- C8 witness: resizing `[1, 2]` (capacity 2) to 5 reallocates to capacity
`max 5 4 = 5`, keeps `[1, 2]` and default-fills the rest; resizing it to 1
truncates to `[1]`. -/
theorem C8_Resize_witness :
    ((SimpleVector.fromList [1, 2] 0).Resize 5 0).capacity_ = max 5 (2 * 2) ∧
    ((SimpleVector.fromList [1, 2] 0).Resize 5 0).toList =
      (SimpleVector.fromList [1, 2] 0).toList ++ List.replicate (5 - 2) 0 ∧
    ((SimpleVector.fromList [1, 2] 0).Resize 1 0).toList =
      (SimpleVector.fromList [1, 2] 0).toList.take 1 :=
  ⟨((C8_Resize_spec (SimpleVector.fromList [1, 2] 0) 5 0 (by decide)).2.2
      (by decide)).2.1,
    ((C8_Resize_spec (SimpleVector.fromList [1, 2] 0) 5 0 (by decide)).2.2
      (by decide)).2.2.1,
    ((C8_Resize_spec (SimpleVector.fromList [1, 2] 0) 1 0 (by decide)).1
      (by decide)).2.2⟩

/-- C9: over a linearly ordered element type, `==` holds exactly on equal
size with element-wise equal contents in order, `<` is exactly
lexicographic precedence of the live sequences (element-by-element with
shorter-is-less on common-prefix equality, i.e. `List.Lex` of the strict
element order), and the derived `>`, `<=`, `>=` agree with the relations
derived from `<` and equality: `a > b` iff `b < a`, `a <= b` iff
`a < b` or `a == b`, `a >= b` iff `b < a` or `a == b`. -/
theorem C9_compare_spec [LinearOrder α] (a b : SimpleVector α)
    (ha : a.Inv) (hb : b.Inv) :
    (SimpleVector.veq a b = true ↔
      (a.size_ = b.size_ ∧
        ∀ i, i < a.size_ → ∀ dd : α, a.get i dd = b.get i dd)) ∧
    (SimpleVector.vlt a b = true ↔ List.Lex (· < ·) a.toList b.toList) ∧
    (SimpleVector.vgt a b = true ↔ SimpleVector.vlt b a = true) ∧
    (SimpleVector.vle a b = true ↔
      (SimpleVector.vlt a b = true ∨ SimpleVector.veq a b = true)) ∧
    (SimpleVector.vge a b = true ↔
      (SimpleVector.vlt b a = true ∨ SimpleVector.veq a b = true)) := by
  have hveq := SimpleVector.veq_iff_toList a b ha hb
  have hgt_iff : SimpleVector.vgt a b = true ↔ SimpleVector.vlt b a = true := by
    constructor
    · intro h
      have h' := h
      unfold SimpleVector.vgt SimpleVector.vne at h'
      rw [Bool.and_eq_true, Bool.not_eq_true', Bool.not_eq_true'] at h'
      obtain ⟨hlt0, hveqf⟩ := h'
      have hne : ¬ a.toList = b.toList := by
        intro he
        rw [hveq.2 he] at hveqf
        cases hveqf
      rcases (SimpleVector.lexCompare_false_iff a.toList b.toList).1 hlt0 with
        h1 | h1
      · exact h1
      · exact absurd h1 hne
    · intro h
      have hlt0 : SimpleVector.lexCompare a.toList b.toList = false :=
        SimpleVector.lexCompare_asymm b.toList a.toList h
      have hne : ¬ a.toList = b.toList := by
        intro he
        have h2 : SimpleVector.lexCompare b.toList a.toList = true := h
        rw [← he] at h2
        simp [SimpleVector.lexCompare_irrefl] at h2
      have hveqf : SimpleVector.veq a b = false := by
        cases hq : SimpleVector.veq a b
        · rfl
        · exact absurd (hveq.1 hq) hne
      show (!SimpleVector.vlt a b && SimpleVector.vne a b) = true
      unfold SimpleVector.vne
      rw [show SimpleVector.vlt a b = false from hlt0, hveqf]
      rfl
  refine ⟨hveq.trans (SimpleVector.toList_eq_iff_getD a b ha hb),
    SimpleVector.lexCompare_iff_Lex a.toList b.toList, hgt_iff, ?_, ?_⟩
  · constructor
    · intro h
      have hgtf : SimpleVector.vgt a b = false := by
        have h' := h
        unfold SimpleVector.vle at h'
        rwa [Bool.not_eq_true'] at h'
      have hnlt : SimpleVector.lexCompare b.toList a.toList = false := by
        cases hq : SimpleVector.lexCompare b.toList a.toList
        · rfl
        · have := hgt_iff.2 hq
          rw [hgtf] at this
          cases this
      rcases (SimpleVector.lexCompare_false_iff b.toList a.toList).1 hnlt with
        h1 | h1
      · exact Or.inl h1
      · exact Or.inr (hveq.2 h1.symm)
    · intro h
      unfold SimpleVector.vle
      rw [Bool.not_eq_true']
      cases hq : SimpleVector.vgt a b
      · rfl
      · have hba : SimpleVector.lexCompare b.toList a.toList = true :=
          hgt_iff.1 hq
        rcases h with h1 | h1
        · have hf := SimpleVector.lexCompare_asymm a.toList b.toList h1
          rw [hf] at hba
          cases hba
        · have he := hveq.1 h1
          rw [he] at hba
          simp [SimpleVector.lexCompare_irrefl] at hba
  · constructor
    · intro h
      have hltf : SimpleVector.lexCompare a.toList b.toList = false := by
        have h' := h
        unfold SimpleVector.vge at h'
        rwa [Bool.not_eq_true'] at h'
      rcases (SimpleVector.lexCompare_false_iff a.toList b.toList).1 hltf with
        h1 | h1
      · exact Or.inl h1
      · exact Or.inr (hveq.2 h1)
    · intro h
      unfold SimpleVector.vge
      rw [Bool.not_eq_true']
      rcases h with h1 | h1
      · exact SimpleVector.lexCompare_asymm b.toList a.toList h1
      · have he := hveq.1 h1
        show SimpleVector.lexCompare a.toList b.toList = false
        rw [he]
        exact SimpleVector.lexCompare_irrefl b.toList

/-- C9 witness: concrete comparisons of `[1, 2]` and `[1, 3]`. -/
theorem C9_compare_witness :
    (SimpleVector.vlt (SimpleVector.fromList [1, 2] 0)
        (SimpleVector.fromList [1, 3] 0) = true ↔
      List.Lex (· < ·) (SimpleVector.fromList [1, 2] 0).toList
        (SimpleVector.fromList [1, 3] 0).toList) ∧
    (SimpleVector.vle (SimpleVector.fromList [1, 2] 0)
        (SimpleVector.fromList [1, 3] 0) = true ↔
      (SimpleVector.vlt (SimpleVector.fromList [1, 2] 0)
          (SimpleVector.fromList [1, 3] 0) = true ∨
        SimpleVector.veq (SimpleVector.fromList [1, 2] 0)
          (SimpleVector.fromList [1, 3] 0) = true)) :=
  ⟨(C9_compare_spec (SimpleVector.fromList [1, 2] 0)
      (SimpleVector.fromList [1, 3] 0) (by decide) (by decide)).2.1,
    (C9_compare_spec (SimpleVector.fromList [1, 2] 0)
      (SimpleVector.fromList [1, 3] 0) (by decide) (by decide)).2.2.2.1⟩

end SimpleVec
